import Mathlib

/-!
Verification of the Bayou/quillex server-side document control engine
(`src/local-modules/doc-server/DocControl.js` and the storage-layer
`TransactionSpec` / append transaction), as a shallow embedding in Lean.

The rich-text delta algebra (`FrozenDelta`: `compose`, `transform`, `diff`,
`isEmpty`, `isDocument`) is an external black box that is not part of this
repository; it is embedded as an abstract operation record (`DeltaAlgebra`),
and theorems take as hypotheses exactly the algebraic laws the engine's
documentation assumes.  Document state (the append-only change log persisted
under `change/<n>` plus `revision_number`) is embedded two ways: a
structured log (`Doc`) used for the control-level algorithms, and a raw
path-to-value file (`FileState`) used for the transaction-level claims.
-/

namespace DocCtl

/-- The delta algebra consumed by the engine (`FrozenDelta` and friends in
the `doc-common` module, which is outside this repository's source).  The
engine treats deltas as opaque and only uses these operations. -/
structure DeltaAlgebra (δ : Type) where
  empty : δ
  compose : δ → δ → δ
  transform : δ → δ → Bool → δ
  diff : δ → δ → δ
  isEmpty : δ → Bool
  isDocument : δ → Bool

/-- `DocumentChange` from `doc-common`: revision number, timestamp (absent
only for the very first change), delta, and optional author.  Mirrors the
constructor calls in `DocControl.js`. -/
structure DocumentChange (δ : Type) where
  revNum : Nat
  timestamp : Option Nat
  delta : δ
  authorId : Option String
deriving DecidableEq

/-- `DocumentChange.firstChange()`: the empty change #0 that starts every
document (`create()` writes it as `change/0`). -/
def DocumentChange.firstChange {δ : Type} (A : DeltaAlgebra δ) : DocumentChange δ :=
  { revNum := 0, timestamp := none, delta := A.empty, authorId := none }

/-- `Snapshot` from `doc-common`: a revision number paired with the full
document contents at that revision. -/
structure Snapshot (δ : Type) where
  revNum : Nat
  contents : δ
deriving DecidableEq

/-- `DeltaResult` from `doc-common`: a revision number paired with a delta,
used as the return value of `applyDelta` and `deltaAfter`. -/
structure DeltaResult (δ : Type) where
  revNum : Nat
  delta : δ
deriving DecidableEq

/-- Error kinds observable from the engine; drawn from the repository's
error vocabulary (`InfoError` names such as `path_not_empty`, the
`TypeError.badValue` kind asserted as `/^bad_value/` by the repository's
own tests, and the spec's wire taxonomy). `genericError` stands for a plain
JavaScript `Error` carrying only a message. -/
inductive ErrorKind where
  | badValue
  | revisionNotAvailable
  | pathNotEmpty
  | pathNotFound
  | tooManyRetries
  | timedOut
  | genericError (msg : String)
deriving DecidableEq

/-- The persisted change log of one document, structured: entry `n` of
`changes` is the change stored at path `change/<n>`.  Under storage
invariant 1 of the layout, `revision_number` equals `changes.length - 1`. -/
structure Doc (δ : Type) where
  changes : List (DocumentChange δ)
deriving DecidableEq

/-- The current document revision number (`_currentRevNums().docRevNum`),
i.e. the value stored at `revision_number`. -/
def Doc.head {δ : Type} (doc : Doc δ) : Nat :=
  doc.changes.length - 1

/-- The changes stored at paths `change/<start>` … `change/<endExc - 1>`,
as retrieved by `_readChangeRange(start, endExc)`. -/
def Doc.range {δ : Type} (doc : Doc δ) (start endExc : Nat) : List (DocumentChange δ) :=
  (doc.changes.drop start).take (endExc - start)

/-- Left-composition of a list of changes onto a base delta: the inner loop
of `_composeRevisions` (`result = result.compose(c.delta)`). -/
def foldCompose {δ : Type} (A : DeltaAlgebra δ) (base : δ)
    (cs : List (DocumentChange δ)) : δ :=
  cs.foldl (fun acc c => A.compose acc c.delta) base

/-- `MAX_CHANGE_READS_PER_TRANSACTION` in `DocControl.js`. -/
def MAX_CHANGE_READS_PER_TRANSACTION : Nat := 20

/-- The chunked read-and-compose loop of `_composeRevisions`: reads ranges
of at most `MAX_CHANGE_READS_PER_TRANSACTION` changes at a time and composes
each onto the accumulator. -/
def composeChunks {δ : Type} (A : DeltaAlgebra δ) (doc : Doc δ)
    (acc : δ) (i endExc : Nat) : δ :=
  if _h : i < endExc then
    let e := min (i + MAX_CHANGE_READS_PER_TRANSACTION) endExc
    composeChunks A doc (foldCompose A acc (doc.range i e)) e endExc
  else
    acc
termination_by endExc - i
decreasing_by
  simp only [MAX_CHANGE_READS_PER_TRANSACTION]
  omega

/-- `_composeRevisions(baseDelta, startInclusive, endExclusive)`: composes
`baseDelta` with the deltas of changes `startInclusive .. endExclusive - 1`.
(The `startInclusive === endExclusive` short circuit returns `baseDelta`,
which `composeChunks` also does when the range is empty.) -/
def composeRevisions {δ : Type} (A : DeltaAlgebra δ) (doc : Doc δ)
    (baseDelta : δ) (startInclusive endExclusive : Nat) : δ :=
  composeChunks A doc baseDelta startInclusive endExclusive

/-- The canonical contents of revision `n`: the empty delta composed with
the deltas of changes `0 .. n` (what `_composeRevisions(EMPTY, 0, n + 1)`
produces). -/
def composeAll {δ : Type} (A : DeltaAlgebra δ) (doc : Doc δ) (n : Nat) : δ :=
  foldCompose A A.empty (doc.range 0 (n + 1))

/-- The sparse revision-number-to-snapshot cache (`this._snapshots`),
embedded as an association list; `Map.get` is `lookup`, `Map.set` prepends. -/
abbrev SnapCache (δ : Type) : Type := List (Nat × Snapshot δ)

/-- `this._snapshots.get(i)`. -/
def cacheGet {δ : Type} (cache : SnapCache δ) (i : Nat) : Option (Snapshot δ) :=
  match cache.find? (fun p => p.1 == i) with
  | some p => some p.2
  | none => none

/-- `this._snapshots.set(n, s)`. -/
def cacheSet {δ : Type} (cache : SnapCache δ) (n : Nat) (s : Snapshot δ) :
    SnapCache δ :=
  (n, s) :: cache

/-- The backward cache search in `snapshot()`: scan `i = revNum` down to `0`
and return the first cached snapshot found. -/
def cacheFindDown {δ : Type} (cache : SnapCache δ) : Nat → Option (Snapshot δ)
  | 0 => cacheGet cache 0
  | n + 1 =>
    match cacheGet cache (n + 1) with
    | some v => some v
    | none => cacheFindDown cache n

/-- The body of `snapshot()` after revision-number validation: search the
cache backward from `revNum` for a base, return it on an exact hit, and
otherwise forward-compose changes from the base (or from the empty delta
when nothing is cached), store the result in the cache, and return it. -/
def snapshotAt {δ : Type} (A : DeltaAlgebra δ) (doc : Doc δ) (cache : SnapCache δ)
    (revNum : Nat) : Except ErrorKind (Snapshot δ × SnapCache δ) :=
  match cacheFindDown cache revNum with
  | some base =>
    if base.revNum = revNum then
      .ok (base, cache)
    else
      let contents := composeRevisions A doc base.contents (base.revNum + 1) (revNum + 1)
      let result : Snapshot δ := ⟨revNum, contents⟩
      .ok (result, cacheSet cache revNum result)
  | none =>
    let contents := composeRevisions A doc A.empty 0 (revNum + 1)
    let result : Snapshot δ := ⟨revNum, contents⟩
    .ok (result, cacheSet cache revNum result)

/-- `snapshot(revNum)` of `DocControl.js`.  `none` for the argument is the
`null` default, meaning the current revision.  An out-of-range revision
number fails the `RevisionNumber.maxInc` range check, which raises a
`bad_value` type error (`VersionNumber.maxInc` in `doc-store/LocalDoc.js`
delegates to `TInt.rangeInc` and `TypeError.badValue`).  On success,
returns the snapshot together with the updated cache. -/
def snapshot {δ : Type} (A : DeltaAlgebra δ) (doc : Doc δ) (cache : SnapCache δ)
    (revNum? : Option Nat) : Except ErrorKind (Snapshot δ × SnapCache δ) :=
  let currentRevNum := doc.head
  match revNum? with
  | none => snapshotAt A doc cache currentRevNum
  | some revNum =>
    if revNum ≤ currentRevNum then
      snapshotAt A doc cache revNum
    else
      .error .badValue

/-- The effect on the structured log of a successful `_appendDelta` commit:
the transaction writes the new change at `change/<revNum>` and updates
`revision_number` to `revNum` (which, at the log level, appends the change).
`revNum` is `baseRevNum + 1` as computed in `_appendDelta`. -/
def appendChange {δ : Type} (doc : Doc δ) (revNum : Nat) (delta : δ)
    (authorId : Option String) (now : Nat) : Doc δ :=
  ⟨doc.changes ++ [{ revNum := revNum, timestamp := some now,
                     delta := delta, authorId := authorId }]⟩

/-- `_applyDeltaTo(base, delta, authorId, current, expected)` of
`DocControl.js`, in the race-free (single-writer) execution where the
conditional append commits: the fast path appends `delta` itself at
`current.revNum + 1` and returns an empty correction; the rebase path
composes the server changes `base.revNum + 1 .. current.revNum`, transforms
the client delta over them (`dServer.transform(dClient, true)`, server
first), short-circuits when the transformed delta is empty, and otherwise
appends it and returns the diff from the expected contents to the new head
as the correction.  (The lost-race `null` outcome and the retry loop around
it are embedded separately by `applyDeltaLoop`.) -/
def applyDeltaTo {δ : Type} (A : DeltaAlgebra δ) (doc : Doc δ)
    (cache : SnapCache δ) (base : Snapshot δ) (delta : δ)
    (authorId : Option String) (current expected : Snapshot δ) (now : Nat) :
    Except ErrorKind (DeltaResult δ × Doc δ × SnapCache δ) :=
  if base.revNum = current.revNum then
    let revNum := base.revNum + 1
    let doc' := appendChange doc revNum delta authorId now
    .ok (⟨revNum, A.empty⟩, doc', cache)
  else
    let dServer := composeRevisions A doc A.empty (base.revNum + 1) (current.revNum + 1)
    let dNext := A.transform dServer delta true
    if A.isEmpty dNext then
      .ok (⟨current.revNum, A.empty⟩, doc, cache)
    else
      let vNextNum := current.revNum + 1
      let doc' := appendChange doc vNextNum dNext authorId now
      match snapshot A doc' cache (some vNextNum) with
      | .error e => .error e
      | .ok (rNext, cache') =>
        let dCorrection := A.diff expected.contents rNext.contents
        .ok (⟨vNextNum, dCorrection⟩, doc', cache')

/-- `applyDelta(baseRevNum, delta, authorId)` of `DocControl.js`, in the
race-free execution where the first attempt commits: snapshot the base
(validating `baseRevNum`), short-circuit an empty delta, compose the
implied expected result, snapshot the current head, and apply.  Returns the
correction `DeltaResult` together with the updated log and cache. -/
def applyDelta {δ : Type} (A : DeltaAlgebra δ) (doc : Doc δ)
    (cache : SnapCache δ) (baseRevNum : Nat) (delta : δ)
    (authorId : Option String) (now : Nat) :
    Except ErrorKind (DeltaResult δ × Doc δ × SnapCache δ) :=
  match snapshot A doc cache (some baseRevNum) with
  | .error e => .error e
  | .ok (base, cache1) =>
    if A.isEmpty delta then
      .ok (⟨baseRevNum, A.empty⟩, doc, cache1)
    else
      let expected : Snapshot δ := ⟨baseRevNum + 1, A.compose base.contents delta⟩
      match snapshot A doc cache1 none with
      | .error e => .error e
      | .ok (current, cache2) =>
        applyDeltaTo A doc cache2 base delta authorId current expected now

/-- One iteration of the `deltaAfter(baseRevNum)` loop: read the current
revision numbers, validate `baseRevNum` against the document head
(`RevisionNumber.maxInc`, a `bad_value` failure when above it), and if the
head is already past the base, return the composed delta; `ok none` stands
for the iteration that suspends on `whenChange` and loops. -/
def deltaAfterStep {δ : Type} (A : DeltaAlgebra δ) (doc : Doc δ)
    (baseRevNum : Nat) : Except ErrorKind (Option (DeltaResult δ)) :=
  let docRevNum := doc.head
  if baseRevNum ≤ docRevNum then
    if baseRevNum < docRevNum then
      .ok (some ⟨docRevNum,
        composeRevisions A doc A.empty (baseRevNum + 1) (docRevNum + 1)⟩)
    else
      .ok none
  else
    .error .badValue

/-- Modelled from the spec: the storage paths used by the document format
(the `Paths` utility module is not part of this repository's source; the
spec's persisted layout names a per-stream `revision_number` path, a
`change/<N>` path per revision, and a `format_version` path).  An inductive
key type keeps distinctness of the paths a matter of constructors. -/
inductive StoragePath where
  | formatVersion
  | revisionNumber
  | changeFor (n : Nat)
deriving DecidableEq

/-- A value stored in the file: an encoded change, an encoded revision
number, or an encoded string (such as the format version). -/
inductive StoredValue (δ : Type) where
  | encChange (c : DocumentChange δ)
  | encNum (n : Nat)
  | encString (s : String)
deriving DecidableEq

/-- Modelled from the spec: the operation categories of `FileOp` (the
`FileOp` class is not part of this repository's source).  The spec's
storage contract draws operations from environment settings (`timeout`),
prerequisite checks, reads, path lists, writes, deletes, and waits. -/
inductive OpCategory where
  | environment
  | prerequisite
  | read
  | list
  | delete
  | write
  | wait
deriving DecidableEq

/-- Modelled from the spec: the storage-layer file operations consumed by
the engine (`checkPathExists`, `checkPathEmpty`, `readPath`, `writePath`,
`deletePath`, `listPath`, `timeout`, and a wait operation). -/
inductive FileOp (δ : Type) where
  | checkPathExists (p : StoragePath)
  | checkPathEmpty (p : StoragePath)
  | readPath (p : StoragePath)
  | writePath (p : StoragePath) (v : StoredValue δ)
  | deletePath (p : StoragePath)
  | listPath (p : StoragePath)
  | timeoutOp (durMsec : Nat)
  | whenPathNot (p : StoragePath) (v : StoredValue δ)
deriving DecidableEq

/-- The category of each operation. -/
def FileOp.category {δ : Type} : FileOp δ → OpCategory
  | .checkPathExists _ => .prerequisite
  | .checkPathEmpty _ => .prerequisite
  | .readPath _ => .read
  | .writePath _ _ => .write
  | .deletePath _ => .delete
  | .listPath _ => .list
  | .timeoutOp _ => .environment
  | .whenPathNot _ _ => .wait

/-- The name of each operation (`op.name`), as used by `opsWithName`. -/
def FileOp.opName {δ : Type} : FileOp δ → String
  | .checkPathExists _ => "checkPathExists"
  | .checkPathEmpty _ => "checkPathEmpty"
  | .readPath _ => "readPath"
  | .writePath _ _ => "writePath"
  | .deletePath _ => "deletePath"
  | .listPath _ => "listPath"
  | .timeoutOp _ => "timeout"
  | .whenPathNot _ _ => "whenPathNot"

/-- Modelled from the spec: the execution rank of each category
(`FileOp.sortByCategory` orders environment settings first, then
prerequisite checks, then reads and lists, then deletes and writes, then
waits). -/
def OpCategory.rank : OpCategory → Nat
  | .environment => 0
  | .prerequisite => 1
  | .read => 2
  | .list => 3
  | .delete => 4
  | .write => 5
  | .wait => 6

/-- `FileOp.sortByCategory`: a stable sort of the operations by category
rank (operations of equal category keep their relative order). -/
def sortByCategory {δ : Type} (ops : List (FileOp δ)) : List (FileOp δ) :=
  (((List.range 7).map
    (fun r => ops.filter (fun op => op.category.rank == r)))).flatten

/-- `opsWithName(name)` of `TransactionSpec`. -/
def opsWithName {δ : Type} (ops : List (FileOp δ)) (name : String) :
    List (FileOp δ) :=
  ops.filter (fun op => op.opName == name)

/-- `opsWithCategory(category)` of `TransactionSpec`. -/
def opsWithCategory {δ : Type} (ops : List (FileOp δ)) (category : OpCategory) :
    List (FileOp δ) :=
  ops.filter (fun op => op.category == category)

/-- `hasReadOps()` of `TransactionSpec`: any operation of the read
category. -/
def hasReadOps {δ : Type} (ops : List (FileOp δ)) : Bool :=
  (opsWithCategory ops .read).length != 0

/-- `hasModificationOps()` of `TransactionSpec`: any operation of the
delete or write categories. -/
def hasModificationOps {δ : Type} (ops : List (FileOp δ)) : Bool :=
  ((opsWithCategory ops .delete).length != 0)
    || ((opsWithCategory ops .write).length != 0)

/-- JavaScript `===` between an `Array` object and a number: always false,
an object is never strictly equal to a primitive. -/
def jsArrayStrictEqNum {α : Type} (_a : List α) (_n : Nat) : Bool :=
  false

/-- JavaScript `>` between an `Array` of plain objects and a number: the
array is coerced via its string form, so an empty array becomes `0` and a
non-empty array of objects becomes `NaN`; every comparison against `NaN` is
false. -/
def jsArrayGtNum {α : Type} (a : List α) (n : Nat) : Bool :=
  match a with
  | [] => decide (0 > n)
  | _ :: _ => false

/-- The `TransactionSpec` constructor (`file-store`): category-sorts the
operations and validates the combination restrictions.  The wait-operation
restriction is checked against `waitCount`, which the source assigns the
**array** returned by `opsWithCategory(FileOp.CAT_WAIT)` (not its
`length`), so its comparisons `waitCount === 1` and `waitCount > 1` follow
the JavaScript object-to-number semantics embedded above.  Returns the
sorted operation list on success. -/
def TransactionSpec.make {δ : Type} (ops : List (FileOp δ)) :
    Except ErrorKind (List (FileOp δ)) :=
  let sorted := sortByCategory ops
  if (opsWithName sorted "timeout").length > 1 then
    .error (.genericError "Too many timeout operations.")
  else if (opsWithName sorted "revNum").length > 1 then
    .error (.genericError "Too many revNum operations.")
  else
    let waitCount := opsWithCategory sorted .wait
    if jsArrayStrictEqNum waitCount 1 then
      if hasReadOps sorted || hasModificationOps sorted then
        .error (.genericError "Cannot mix wait operations with reads and modifications.")
      else
        .ok sorted
    else if jsArrayGtNum waitCount 1 then
      .error (.genericError "Too many wait operations.")
    else
      .ok sorted

/-- The raw file contents: an association list from storage paths to stored
values (`fileGet` is path lookup, `fileSet` binds a path). -/
abbrev FileState (δ : Type) : Type := List (StoragePath × StoredValue δ)

/-- Look up the value at a path. -/
def fileGet {δ : Type} (f : FileState δ) (p : StoragePath) :
    Option (StoredValue δ) :=
  match f.find? (fun q => q.1 == p) with
  | some q => some q.2
  | none => none

/-- Bind a path to a value (later bindings shadow earlier ones). -/
def fileSet {δ : Type} (f : FileState δ) (p : StoragePath) (v : StoredValue δ) :
    FileState δ :=
  (p, v) :: f

/-- Modelled from the spec: transaction execution (the local file-store
back end is not part of this repository's source).  The operations run in
order against the file; a failed prerequisite raises its distinguished
error kind (`path_not_empty` for `checkPathEmpty`) and the transaction as a
whole either wholly commits (the returned state) or raises, leaving the
file unchanged.  Read results are accumulated and returned. -/
def runOps {δ : Type} (f : FileState δ)
    (reads : List (StoragePath × StoredValue δ)) :
    List (FileOp δ) → Except ErrorKind (FileState δ × List (StoragePath × StoredValue δ))
  | [] => .ok (f, reads)
  | op :: rest =>
    match op with
    | .checkPathExists p =>
      match fileGet f p with
      | some _ => runOps f reads rest
      | none => .error .pathNotFound
    | .checkPathEmpty p =>
      match fileGet f p with
      | none => runOps f reads rest
      | some _ => .error .pathNotEmpty
    | .readPath p =>
      match fileGet f p with
      | some v => runOps f (reads ++ [(p, v)]) rest
      | none => runOps f reads rest
    | .writePath p v => runOps (fileSet f p v) reads rest
    | .deletePath p => runOps (f.filter (fun q => q.1 != p)) reads rest
    | .listPath _ => runOps f reads rest
    | .timeoutOp _ => runOps f reads rest
    | .whenPathNot _ _ => runOps f reads rest

/-- `file.transact(spec)`: construct the spec (category-sorting and
validating), then run its operations atomically. -/
def transact {δ : Type} (f : FileState δ) (ops : List (FileOp δ)) :
    Except ErrorKind (FileState δ × List (StoragePath × StoredValue δ)) :=
  match TransactionSpec.make ops with
  | .error e => .error e
  | .ok sorted => runOps f [] sorted

/-- The operation list built by `_appendDelta` for revision `revNum`:
check that `change/<revNum>` is empty, write the encoded change there, and
write `revision_number = revNum`. -/
def appendSpecOps {δ : Type} (revNum : Nat) (change : DocumentChange δ) :
    List (FileOp δ) :=
  [ .checkPathEmpty (.changeFor revNum),
    .writePath (.changeFor revNum) (.encChange change),
    .writePath .revisionNumber (.encNum revNum) ]

/-- `_appendDelta(baseRevNum, delta, authorId)` of `DocControl.js` at the
file level: refuses an empty delta, runs the conditional append transaction
for `revNum = baseRevNum + 1`, converts a `path_not_empty` failure (a lost
append race) into the `none` result, and rethrows every other error. -/
def appendDeltaFile {δ : Type} (A : DeltaAlgebra δ) (f : FileState δ)
    (baseRevNum : Nat) (delta : δ) (authorId : Option String) (now : Nat) :
    Except ErrorKind (Option (Nat × FileState δ)) :=
  if A.isEmpty delta then
    .error (.genericError "Should not have been called with an empty delta.")
  else
    let revNum := baseRevNum + 1
    let change : DocumentChange δ :=
      { revNum := revNum, timestamp := some now, delta := delta, authorId := authorId }
    match transact f (appendSpecOps revNum change) with
    | .ok (f', _) => .ok (some (revNum, f'))
    | .error .pathNotEmpty => .ok none
    | .error e => .error e

/-- `INITIAL_APPEND_RETRY_MSEC` in `DocControl.js`. -/
def INITIAL_APPEND_RETRY_MSEC : Nat := 50

/-- `APPEND_RETRY_GROWTH_FACTOR` in `DocControl.js`. -/
def APPEND_RETRY_GROWTH_FACTOR : Nat := 5

/-- `MAX_APPEND_TIME_MSEC` in `DocControl.js` (20 seconds). -/
def MAX_APPEND_TIME_MSEC : Nat := 20 * 1000

/-- The value of the loop variable `retryDelayMsec` at the start of attempt
`n` (0-based): it starts at `INITIAL_APPEND_RETRY_MSEC` and is multiplied
by `APPEND_RETRY_GROWTH_FACTOR` after each sleep. -/
def retryDelayMsec (n : Nat) : Nat :=
  INITIAL_APPEND_RETRY_MSEC * APPEND_RETRY_GROWTH_FACTOR ^ n

/-- The value of the loop variable `retryTotalMsec` at the start of attempt
`n` (0-based): the sum of the delays slept so far. -/
def retryTotalMsec : Nat → Nat
  | 0 => 0
  | n + 1 => retryTotalMsec n + retryDelayMsec n

/-- The retry loop of `applyDelta` (`for (;;) { ... }`), abstracted over
the outcome of each attempt (`attempt k` is what the `k`-th call to
`_applyDeltaTo` produces: a result, a lost-race `null`, or a thrown error).
On a lost race the loop checks the retry budget, fails with the loop's
distinguished too-many-retries error once `retryTotalMsec` has reached
`MAX_APPEND_TIME_MSEC`, and otherwise sleeps `retryDelayMsec` and iterates.
Returns the successful result together with the index of the attempt that
produced it. -/
def applyDeltaLoop {R : Type} (attempt : Nat → Except ErrorKind (Option R))
    (n : Nat) : Except ErrorKind (R × Nat) :=
  match attempt n with
  | .error e => .error e
  | .ok (some r) => .ok (r, n)
  | .ok none =>
    if MAX_APPEND_TIME_MSEC ≤ retryTotalMsec n then
      .error .tooManyRetries
    else
      applyDeltaLoop attempt (n + 1)
termination_by MAX_APPEND_TIME_MSEC - retryTotalMsec n
decreasing_by
  rename_i hlt
  have hpos : 0 < retryDelayMsec n := by
    have : 0 < (5 : Nat) ^ n := Nat.pos_pow_of_pos n (by omega)
    simp only [retryDelayMsec, INITIAL_APPEND_RETRY_MSEC, APPEND_RETRY_GROWTH_FACTOR]
    omega
  have hstep : retryTotalMsec (n + 1) = retryTotalMsec n + retryDelayMsec n := rfl
  omega

/-- The composition named by the spec's compose-consistency property:
`change/0.delta.compose(change/1.delta)…compose(change/N.delta)`, i.e. the
left fold starting from change #0's own delta. -/
def claimComposition {δ : Type} (A : DeltaAlgebra δ) (doc : Doc δ) (n : Nat) : δ :=
  match doc.changes.head? with
  | some c0 => foldCompose A c0.delta (doc.range 1 (n + 1))
  | none => A.empty

/-- A concrete delta algebra on integers used to evaluate the engine at
specific inputs: composition is addition, the empty delta is `0`, `diff`
is subtraction (so `a.compose(a.diff(b)) = b` holds for all values), and
every value counts as a document. -/
def intAlg : DeltaAlgebra Int :=
  { empty := 0
    compose := fun a b => a + b
    transform := fun _ b _ => b
    diff := fun a b => b - a
    isEmpty := fun a => a == 0
    isDocument := fun _ => true }

/-- A concrete delta algebra on naturals modelling prefix deletions: delta
`n` means "delete the first `n` characters of the original document", so
composition is `max`, and transforming a deletion over an already-applied
larger deletion leaves nothing to do (the empty delta `0`).  This
`transform` satisfies the TP1 convergence law
`a.compose(a.transform(b, true)) = b.compose(b.transform(a, true))`
(both sides are `max a b`). -/
def maxAlg : DeltaAlgebra Nat :=
  { empty := 0
    compose := fun a b => max a b
    transform := fun a b _ => if b ≤ a then 0 else b
    diff := fun _ b => b
    isEmpty := fun a => a == 0
    isDocument := fun _ => true }

/-- A sample persisted log over `intAlg`: the empty first change followed
by two author edits (deltas `2` and `3`), so revision 2 has contents `5`. -/
def exDocB : Doc Int :=
  ⟨[DocumentChange.firstChange intAlg,
    { revNum := 1, timestamp := some 10, delta := 2, authorId := some "a" },
    { revNum := 2, timestamp := some 11, delta := 3, authorId := none }]⟩

/-- A sample one-change log over `intAlg` (a freshly created empty
document at revision 0). -/
def exDocSmall : Doc Int :=
  ⟨[DocumentChange.firstChange intAlg]⟩

/-- A sample log over `maxAlg`: the empty first change followed by a
server change that deletes the first 10 characters. -/
def exDocMax : Doc Nat :=
  ⟨[DocumentChange.firstChange maxAlg,
    { revNum := 1, timestamp := some 1, delta := 10, authorId := some "s" }]⟩

/-! ### Well-formedness of persisted state -/

/-- Well-formedness of a persisted change log, as established by `create()`
and maintained by the append transaction and checked by
`validationStatus()`: change #0 exists and is the empty first change, every
change is stored under its own revision number, and composing changes
`0 .. n` yields a full document (spec invariants 2 and 3). -/
def WellFormed {δ : Type} (A : DeltaAlgebra δ) (doc : Doc δ) : Prop :=
  doc.changes ≠ [] ∧
  doc.changes.head? = some (DocumentChange.firstChange A) ∧
  (∀ i (h : i < doc.changes.length), (doc.changes.get ⟨i, h⟩).revNum = i) ∧
  (∀ n, n < doc.changes.length → A.isDocument (composeAll A doc n) = true)

/-- Validity of the snapshot cache relative to a log: every entry is stored
under its own revision number, refers to an existing revision, and holds
the canonical contents of that revision. -/
def ValidCache {δ : Type} (A : DeltaAlgebra δ) (doc : Doc δ)
    (cache : SnapCache δ) : Prop :=
  ∀ p ∈ cache, p.2.revNum = p.1 ∧ p.1 ≤ doc.head ∧
    p.2.contents = composeAll A doc p.1

/-! ### Composition lemmas -/

theorem range_append {δ : Type} (doc : Doc δ) {a b c : Nat}
    (hab : a ≤ b) (hbc : b ≤ c) :
    doc.range a b ++ doc.range b c = doc.range a c := by
  unfold Doc.range
  have hdrop : doc.changes.drop b = (doc.changes.drop a).drop (b - a) := by
    rw [List.drop_drop]
    congr 1
    omega
  rw [hdrop, ← List.take_add]
  congr 1
  omega

theorem foldCompose_append {δ : Type} (A : DeltaAlgebra δ) (base : δ)
    (l1 l2 : List (DocumentChange δ)) :
    foldCompose A base (l1 ++ l2) = foldCompose A (foldCompose A base l1) l2 := by
  simp [foldCompose]

theorem range_self {δ : Type} (doc : Doc δ) {a b : Nat} (h : b ≤ a) :
    doc.range a b = [] := by
  unfold Doc.range
  have : b - a = 0 := by omega
  simp [this]

theorem composeChunks_eq_fold {δ : Type} (A : DeltaAlgebra δ) (doc : Doc δ) :
    ∀ (fuel i endExc : Nat), endExc - i ≤ fuel → ∀ acc,
      composeChunks A doc acc i endExc = foldCompose A acc (doc.range i endExc) := by
  intro fuel
  induction fuel with
  | zero =>
    intro i endExc hle acc
    rw [composeChunks]
    have hni : ¬ i < endExc := by omega
    simp only [hni, dite_false]
    rw [range_self doc (by omega)]
    rfl
  | succ m ih =>
    intro i endExc hle acc
    rw [composeChunks]
    by_cases hlt : i < endExc
    · simp only [hlt, dite_true]
      have hmin1 : i ≤ min (i + MAX_CHANGE_READS_PER_TRANSACTION) endExc := by
        simp [MAX_CHANGE_READS_PER_TRANSACTION]
        omega
      have hmin2 : min (i + MAX_CHANGE_READS_PER_TRANSACTION) endExc ≤ endExc := by
        omega
      have hstep : i < min (i + MAX_CHANGE_READS_PER_TRANSACTION) endExc := by
        simp [MAX_CHANGE_READS_PER_TRANSACTION]
        omega
      rw [ih _ _ (by omega)]
      rw [← foldCompose_append, range_append doc hmin1 hmin2]
    · simp only [hlt, dite_false]
      rw [range_self doc (by omega)]
      rfl

theorem composeRevisions_eq_fold {δ : Type} (A : DeltaAlgebra δ) (doc : Doc δ)
    (baseDelta : δ) (startInclusive endExclusive : Nat) :
    composeRevisions A doc baseDelta startInclusive endExclusive
      = foldCompose A baseDelta (doc.range startInclusive endExclusive) :=
  composeChunks_eq_fold A doc _ _ _ (Nat.le_refl _) baseDelta

/-- Forward composition from the canonical contents of revision `m` up to
revision `n` yields the canonical contents of revision `n`. -/
theorem composeAll_extend {δ : Type} (A : DeltaAlgebra δ) (doc : Doc δ)
    {m n : Nat} (hmn : m ≤ n) :
    foldCompose A (composeAll A doc m) (doc.range (m + 1) (n + 1))
      = composeAll A doc n := by
  unfold composeAll
  rw [← foldCompose_append, range_append doc (by omega) (by omega)]

/-! ### Cache lemmas -/

theorem cacheGet_valid {δ : Type} {A : DeltaAlgebra δ} {doc : Doc δ}
    {cache : SnapCache δ} (hv : ValidCache A doc cache) {i : Nat}
    {s : Snapshot δ} (h : cacheGet cache i = some s) :
    s.revNum = i ∧ i ≤ doc.head ∧ s.contents = composeAll A doc i := by
  unfold cacheGet at h
  cases hfind : cache.find? (fun p => p.1 == i) with
  | none => rw [hfind] at h; exact absurd h (by simp)
  | some p =>
    rw [hfind] at h
    have hmem : p ∈ cache := List.mem_of_find?_eq_some hfind
    have hkey : p.1 = i := by
      have := List.find?_some hfind
      simpa using this
    have := hv p hmem
    cases h
    rw [hkey] at this
    exact this

theorem cacheFindDown_valid {δ : Type} {A : DeltaAlgebra δ} {doc : Doc δ}
    {cache : SnapCache δ} (hv : ValidCache A doc cache) :
    ∀ {n : Nat} {s : Snapshot δ}, cacheFindDown cache n = some s →
      s.revNum ≤ n ∧ s.revNum ≤ doc.head ∧
        s.contents = composeAll A doc s.revNum := by
  intro n
  induction n with
  | zero =>
    intro s h
    simp only [cacheFindDown] at h
    obtain ⟨h1, h2, h3⟩ := cacheGet_valid hv h
    exact ⟨by omega, by omega, by rw [h1]; exact h3⟩
  | succ m ih =>
    intro s h
    simp only [cacheFindDown] at h
    cases hget : cacheGet cache (m + 1) with
    | some v =>
      rw [hget] at h
      cases h
      obtain ⟨h1, h2, h3⟩ := cacheGet_valid hv hget
      exact ⟨by omega, by omega, by rw [h1]; exact h3⟩
    | none =>
      rw [hget] at h
      obtain ⟨h1, h2, h3⟩ := ih h
      exact ⟨by omega, h2, h3⟩

theorem validCache_set {δ : Type} {A : DeltaAlgebra δ} {doc : Doc δ}
    {cache : SnapCache δ} (hv : ValidCache A doc cache) {n : Nat}
    (hn : n ≤ doc.head) :
    ValidCache A doc (cacheSet cache n ⟨n, composeAll A doc n⟩) := by
  intro p hp
  rcases List.mem_cons.mp hp with hph | hpt
  · subst hph; exact ⟨rfl, hn, rfl⟩
  · exact hv p hpt

/-! ### Snapshot correctness -/

/-- `snapshotAt` returns the snapshot with the requested revision number
and the canonical composed contents, and keeps the cache valid. -/
theorem snapshotAt_ok {δ : Type} {A : DeltaAlgebra δ} {doc : Doc δ}
    {cache : SnapCache δ} (hv : ValidCache A doc cache) {n : Nat}
    (hn : n ≤ doc.head) :
    ∃ cache', snapshotAt A doc cache n = .ok (⟨n, composeAll A doc n⟩, cache') ∧
      ValidCache A doc cache' := by
  unfold snapshotAt
  cases hfind : cacheFindDown cache n with
  | none =>
    refine ⟨_, ?_, validCache_set hv hn⟩
    simp only [composeRevisions_eq_fold]
    rfl
  | some base =>
    obtain ⟨h1, _h2, h3⟩ := cacheFindDown_valid hv hfind
    by_cases heq : base.revNum = n
    · simp only [heq, if_true]
      refine ⟨cache, ?_, hv⟩
      have : base = ⟨n, composeAll A doc n⟩ := by
        cases base
        simp_all
      rw [this]
    · simp only [heq, if_false]
      refine ⟨_, ?_, validCache_set hv hn⟩
      simp only [composeRevisions_eq_fold, h3]
      rw [composeAll_extend A doc (by omega)]

/-- `snapshot` with an explicit in-range revision number succeeds with the
canonical snapshot of that revision. -/
theorem snapshot_ok {δ : Type} {A : DeltaAlgebra δ} {doc : Doc δ}
    {cache : SnapCache δ} (hv : ValidCache A doc cache) {n : Nat}
    (hn : n ≤ doc.head) :
    ∃ cache', snapshot A doc cache (some n) = .ok (⟨n, composeAll A doc n⟩, cache') ∧
      ValidCache A doc cache' := by
  unfold snapshot
  simp only [hn, if_true]
  exact snapshotAt_ok hv hn

/-- `snapshot` with the `null` default succeeds with the canonical snapshot
of the current head revision. -/
theorem snapshot_none_ok {δ : Type} {A : DeltaAlgebra δ} {doc : Doc δ}
    {cache : SnapCache δ} (hv : ValidCache A doc cache) :
    ∃ cache', snapshot A doc cache none
        = .ok (⟨doc.head, composeAll A doc doc.head⟩, cache') ∧
      ValidCache A doc cache' := by
  unfold snapshot
  exact snapshotAt_ok hv (Nat.le_refl _)

/-! ### Append lemmas -/

theorem length_pos_of_ne_nil {δ : Type} {doc : Doc δ} (h : doc.changes ≠ []) :
    0 < doc.changes.length :=
  List.length_pos.mpr h

theorem head_append {δ : Type} (doc : Doc δ) (h : doc.changes ≠ [])
    (r : Nat) (d : δ) (a : Option String) (t : Nat) :
    (appendChange doc r d a t).head = doc.head + 1 := by
  have := length_pos_of_ne_nil h
  simp only [appendChange, Doc.head, List.length_append, List.length_cons,
    List.length_nil]
  omega

theorem composeAll_append_le {δ : Type} (A : DeltaAlgebra δ) (doc : Doc δ)
    {n : Nat} (hn : n + 1 ≤ doc.changes.length)
    (r : Nat) (d : δ) (a : Option String) (t : Nat) :
    composeAll A (appendChange doc r d a t) n = composeAll A doc n := by
  unfold composeAll Doc.range appendChange
  simp only [List.drop_zero, Nat.sub_zero]
  rw [List.take_append_of_le_length hn]

theorem composeAll_head {δ : Type} (A : DeltaAlgebra δ) (doc : Doc δ)
    (h : doc.changes ≠ []) :
    composeAll A doc doc.head = foldCompose A A.empty doc.changes := by
  have := length_pos_of_ne_nil h
  unfold composeAll Doc.range Doc.head
  simp only [List.drop_zero, Nat.sub_zero]
  rw [List.take_of_length_le (by omega)]

theorem composeAll_append_head {δ : Type} (A : DeltaAlgebra δ) (doc : Doc δ)
    (h : doc.changes ≠ []) (r : Nat) (d : δ) (a : Option String) (t : Nat) :
    composeAll A (appendChange doc r d a t) (doc.head + 1)
      = A.compose (composeAll A doc doc.head) d := by
  have := length_pos_of_ne_nil h
  unfold composeAll Doc.range appendChange Doc.head
  simp only [List.drop_zero, Nat.sub_zero]
  rw [List.take_of_length_le (by simp; omega)]
  rw [foldCompose_append]
  show A.compose (foldCompose A A.empty doc.changes) d = _
  congr 1
  rw [List.take_of_length_le (by omega)]

theorem validCache_append {δ : Type} {A : DeltaAlgebra δ} {doc : Doc δ}
    {cache : SnapCache δ} (hv : ValidCache A doc cache)
    (h : doc.changes ≠ []) (r : Nat) (d : δ) (a : Option String) (t : Nat) :
    ValidCache A (appendChange doc r d a t) cache := by
  have hpos := length_pos_of_ne_nil h
  intro p hp
  obtain ⟨h1, h2, h3⟩ := hv p hp
  refine ⟨h1, ?_, ?_⟩
  · rw [head_append doc h]
    omega
  · rw [composeAll_append_le A doc (by simp [Doc.head] at h2 ⊢; omega)]
    exact h3

/-! ### Claim theorems -/

/-- In a well-formed log (whose change #0 is the empty change), the
left-to-right composition starting from the empty delta agrees with the
spec's composition starting from change #0's delta. -/
theorem composeAll_eq_claimComposition {δ : Type} (A : DeltaAlgebra δ)
    (doc : Doc δ) (hwf : WellFormed A doc)
    (hid : ∀ x, A.compose x A.empty = x) (n : Nat) :
    composeAll A doc n = claimComposition A doc n := by
  obtain ⟨hne, hfirst, _, _⟩ := hwf
  cases hch : doc.changes with
  | nil => exact absurd hch hne
  | cons c0 rest =>
    have hc0 : c0 = DocumentChange.firstChange A := by
      rw [hch] at hfirst
      simpa using hfirst
    unfold claimComposition composeAll Doc.range
    rw [hch, hc0]
    simp only [List.head?_cons, List.drop_zero, Nat.sub_zero, Nat.add_sub_cancel,
      List.drop_succ_cons]
    rw [List.take_succ_cons]
    simp only [foldCompose, List.foldl_cons, DocumentChange.firstChange]
    rw [hid A.empty]

/-- C2: for every revision `N` between 0 and the current head inclusive,
`snapshot(N)` succeeds with a snapshot whose `revNum` is `N` and whose
contents are the composition of the deltas of changes `0 .. N` (change #0
being the empty first change), and those contents satisfy `isDocument`. -/
theorem snapshot_compose_consistency {δ : Type} (A : DeltaAlgebra δ)
    (doc : Doc δ) (cache : SnapCache δ) (hwf : WellFormed A doc)
    (hvc : ValidCache A doc cache) (hid : ∀ x, A.compose x A.empty = x)
    (n : Nat) (hn : n ≤ doc.head) :
    ∃ cache', snapshot A doc cache (some n)
        = .ok (⟨n, claimComposition A doc n⟩, cache')
      ∧ A.isDocument (claimComposition A doc n) = true := by
  obtain ⟨cache', hsnap, _⟩ := snapshot_ok hvc hn
  have hcc := composeAll_eq_claimComposition A doc hwf hid n
  refine ⟨cache', by rw [← hcc]; exact hsnap, ?_⟩
  rw [← hcc]
  obtain ⟨hne, _, _, hdoc⟩ := hwf
  apply hdoc
  have := length_pos_of_ne_nil hne
  simp only [Doc.head] at hn
  omega

theorem snapshot_compose_consistency_witness :
    ∃ cache', snapshot intAlg exDocB [(1, ⟨1, 2⟩)] (some 2)
        = .ok (⟨2, claimComposition intAlg exDocB 2⟩, cache')
      ∧ intAlg.isDocument (claimComposition intAlg exDocB 2) = true :=
  snapshot_compose_consistency intAlg exDocB [(1, ⟨1, 2⟩)]
    (by constructor
        · decide
        · refine ⟨by decide, ?_, ?_⟩ <;> decide)
    (by unfold ValidCache; decide)
    (by intro x; simp [intAlg])
    2 (by decide)

/-- C10: snapshot caching is observationally transparent.  For every
revision `n` up to the head, `snapshot(n)` run against any two valid
caches (covering a cache hit at exactly `n`, a forward composition from a
cached base `m < n`, and the from-scratch composition `0 .. n`) returns
one and the same snapshot — the canonical `⟨n, composeAll n⟩` — and the
caches it stores into remain valid, in particular every entry stored
under key `k` has `revNum = k`. -/
theorem snapshot_cache_transparent {δ : Type} (A : DeltaAlgebra δ)
    (doc : Doc δ) (c1 c2 : SnapCache δ) (hv1 : ValidCache A doc c1)
    (hv2 : ValidCache A doc c2) (n : Nat) (hn : n ≤ doc.head) :
    ∃ s k1 k2,
      snapshot A doc c1 (some n) = .ok (s, k1) ∧
      snapshot A doc c2 (some n) = .ok (s, k2) ∧
      s = ⟨n, composeAll A doc n⟩ ∧
      ValidCache A doc k1 ∧ ValidCache A doc k2 := by
  obtain ⟨k1, h1, hk1⟩ := snapshot_ok hv1 hn
  obtain ⟨k2, h2, hk2⟩ := snapshot_ok hv2 hn
  exact ⟨_, k1, k2, h1, h2, rfl, hk1, hk2⟩

theorem snapshot_cache_transparent_witness :
    ∃ s k1 k2,
      snapshot intAlg exDocB [(2, ⟨2, 5⟩)] (some 2) = .ok (s, k1) ∧
      snapshot intAlg exDocB [] (some 2) = .ok (s, k2) ∧
      s = ⟨2, composeAll intAlg exDocB 2⟩ ∧
      ValidCache intAlg exDocB k1 ∧ ValidCache intAlg exDocB k2 :=
  snapshot_cache_transparent intAlg exDocB [(2, ⟨2, 5⟩)] []
    (by unfold ValidCache; decide)
    (by unfold ValidCache; decide)
    2 (by decide)

/-- C8 counterexample: on a freshly created one-revision document,
`snapshot(1)` (a revision strictly above the head `0`) fails with the
`bad_value` kind raised by the revision-number range check — not with
`revision_not_available` as the claim states. -/
theorem snapshot_out_of_range_counterexample :
    snapshot intAlg exDocSmall [] (some 1) = .error .badValue ∧
    ErrorKind.badValue ≠ ErrorKind.revisionNotAvailable := by
  constructor
  · rfl
  · decide

/-- C8 amended: for every revision strictly greater than the current head,
`snapshot(rev)` fails with the error kind `bad_value` (the
`RevisionNumber.maxInc` range check), and when `rev` is omitted (`null`)
it defaults to the current head and succeeds. -/
theorem snapshot_out_of_range {δ : Type} (A : DeltaAlgebra δ) (doc : Doc δ)
    (cache : SnapCache δ) (hvc : ValidCache A doc cache) (r : Nat)
    (hr : doc.head < r) :
    snapshot A doc cache (some r) = .error .badValue ∧
    ∃ cache', snapshot A doc cache none
      = .ok (⟨doc.head, composeAll A doc doc.head⟩, cache') := by
  constructor
  · unfold snapshot
    simp only [Nat.not_le.mpr hr, if_false]
  · obtain ⟨cache', h, _⟩ := snapshot_none_ok hvc
    exact ⟨cache', h⟩

theorem snapshot_out_of_range_witness :
    snapshot intAlg exDocSmall [] (some 5) = .error .badValue ∧
    ∃ cache', snapshot intAlg exDocSmall [] none
      = .ok (⟨exDocSmall.head, composeAll intAlg exDocSmall exDocSmall.head⟩, cache') :=
  snapshot_out_of_range intAlg exDocSmall []
    (by unfold ValidCache; decide) 5 (by decide)

/-- C6: whenever an iteration of `deltaAfter(baseRevNum)` produces a
result, its revision number is strictly greater than `baseRevNum` and
equal to the head read in that iteration, and its delta is the composition
(starting from the empty delta) of the deltas of changes
`baseRevNum + 1 .. revNum`. -/
theorem deltaAfter_minimal {δ : Type} (A : DeltaAlgebra δ) (doc : Doc δ)
    (baseRevNum : Nat) (res : DeltaResult δ)
    (h : deltaAfterStep A doc baseRevNum = .ok (some res)) :
    baseRevNum < res.revNum ∧ res.revNum = doc.head ∧
    res.delta = foldCompose A A.empty (doc.range (baseRevNum + 1) (res.revNum + 1)) := by
  unfold deltaAfterStep at h
  by_cases h1 : baseRevNum ≤ doc.head
  · simp only [h1, if_true] at h
    by_cases h2 : baseRevNum < doc.head
    · simp only [h2, if_true, Except.ok.injEq, Option.some.injEq] at h
      subst h
      exact ⟨h2, rfl, by rw [composeRevisions_eq_fold]⟩
    · simp only [h2, if_false] at h
      exact absurd h (by simp)
  · simp only [h1, if_false] at h
    exact absurd h (by simp)

theorem deltaAfter_minimal_witness :
    0 < (⟨2, (5 : Int)⟩ : DeltaResult Int).revNum ∧
    (⟨2, (5 : Int)⟩ : DeltaResult Int).revNum = exDocB.head ∧
    (⟨2, (5 : Int)⟩ : DeltaResult Int).delta
      = foldCompose intAlg intAlg.empty
          (exDocB.range (0 + 1) ((⟨2, (5 : Int)⟩ : DeltaResult Int).revNum + 1)) :=
  deltaAfter_minimal intAlg exDocB 0 ⟨2, 5⟩ (by
    unfold deltaAfterStep
    simp only [composeRevisions_eq_fold]
    rfl)

/-- C7: applying an empty delta to a valid base revision returns
`(baseRevNum, empty)` and leaves the log untouched — no change is
appended and the stored revision number (the log head) is unchanged. -/
theorem applyDelta_empty_noop {δ : Type} (A : DeltaAlgebra δ) (doc : Doc δ)
    (cache : SnapCache δ) (hvc : ValidCache A doc cache) (baseRevNum : Nat)
    (hn : baseRevNum ≤ doc.head) (delta : δ) (authorId : Option String)
    (now : Nat) (hemp : A.isEmpty delta = true) :
    ∃ cache', applyDelta A doc cache baseRevNum delta authorId now
      = .ok (⟨baseRevNum, A.empty⟩, doc, cache') := by
  obtain ⟨c1, h1, _⟩ := snapshot_ok hvc hn
  unfold applyDelta
  rw [h1]
  simp only [hemp, if_true]
  exact ⟨c1, rfl⟩

theorem applyDelta_empty_noop_witness :
    ∃ cache', applyDelta intAlg exDocB [] 1 0 (some "a") 99
      = .ok (⟨1, intAlg.empty⟩, exDocB, cache') :=
  applyDelta_empty_noop intAlg exDocB [] (by unfold ValidCache; decide)
    1 (by decide) 0 (some "a") 99 (by decide)

/-- C3: when the base revision is strictly below the head read in the
attempt, the rebase path is taken: the delta appended is
`dServer.transform(dClient, true)` with `dServer` the composition of
changes `base.revNum + 1 .. current.revNum` (the `true` priority treating
the server changes as applied first), and if that transformed delta is
empty, `applyDelta` returns `(current.revNum, empty)` without appending
anything. -/
theorem applyDelta_rebase {δ : Type} (A : DeltaAlgebra δ) (doc : Doc δ)
    (cache : SnapCache δ) (hvc : ValidCache A doc cache)
    (hne0 : doc.changes ≠ []) (baseRevNum : Nat) (delta : δ)
    (authorId : Option String) (now : Nat) (hlt : baseRevNum < doc.head)
    (hne : A.isEmpty delta = false) :
    (A.isEmpty (A.transform
        (composeRevisions A doc A.empty (baseRevNum + 1) (doc.head + 1)) delta true) = true →
      ∃ cache', applyDelta A doc cache baseRevNum delta authorId now
        = .ok (⟨doc.head, A.empty⟩, doc, cache')) ∧
    (A.isEmpty (A.transform
        (composeRevisions A doc A.empty (baseRevNum + 1) (doc.head + 1)) delta true) = false →
      ∃ res cache', applyDelta A doc cache baseRevNum delta authorId now
        = .ok (res,
            appendChange doc (doc.head + 1)
              (A.transform
                (composeRevisions A doc A.empty (baseRevNum + 1) (doc.head + 1)) delta true)
              authorId now,
            cache') ∧
        res.revNum = doc.head + 1) := by
  obtain ⟨c1, h1, hv1⟩ := snapshot_ok hvc (Nat.le_of_lt hlt)
  obtain ⟨c2, h2, hv2⟩ := snapshot_none_ok hv1
  have hneq : baseRevNum ≠ doc.head := Nat.ne_of_lt hlt
  constructor
  · intro hdz
    unfold applyDelta
    rw [h1]
    simp only [hne, Bool.false_eq_true, if_false]
    rw [h2]
    unfold applyDeltaTo
    simp only [hneq, if_false, hdz, if_true]
    exact ⟨c2, rfl⟩
  · intro hdz
    unfold applyDelta
    rw [h1]
    simp only [hne, Bool.false_eq_true, if_false]
    rw [h2]
    unfold applyDeltaTo
    simp only [hneq, if_false, hdz, Bool.false_eq_true]
    have hv2' : ValidCache A
        (appendChange doc (doc.head + 1)
          (A.transform
            (composeRevisions A doc A.empty (baseRevNum + 1) (doc.head + 1)) delta true)
          authorId now) c2 :=
      validCache_append hv2 hne0 _ _ _ _
    have hhead : (appendChange doc (doc.head + 1)
        (A.transform
          (composeRevisions A doc A.empty (baseRevNum + 1) (doc.head + 1)) delta true)
        authorId now).head = doc.head + 1 :=
      head_append doc hne0 _ _ _ _
    obtain ⟨c3, h3, _⟩ := snapshot_ok hv2' (by rw [hhead])
    rw [h3]
    exact ⟨_, c3, rfl, rfl⟩

theorem applyDelta_rebase_witness :
    (intAlg.isEmpty (intAlg.transform
        (composeRevisions intAlg exDocB intAlg.empty (0 + 1) (exDocB.head + 1)) 7 true) = true →
      ∃ cache', applyDelta intAlg exDocB [] 0 7 (some "w") 42
        = .ok (⟨exDocB.head, intAlg.empty⟩, exDocB, cache')) ∧
    (intAlg.isEmpty (intAlg.transform
        (composeRevisions intAlg exDocB intAlg.empty (0 + 1) (exDocB.head + 1)) 7 true) = false →
      ∃ res cache', applyDelta intAlg exDocB [] 0 7 (some "w") 42
        = .ok (res,
            appendChange exDocB (exDocB.head + 1)
              (intAlg.transform
                (composeRevisions intAlg exDocB intAlg.empty (0 + 1) (exDocB.head + 1)) 7 true)
              (some "w") 42,
            cache') ∧
        res.revNum = exDocB.head + 1) :=
  applyDelta_rebase intAlg exDocB [] (by unfold ValidCache; decide)
    (by decide) 0 7 (some "w") 42 (by decide) (by decide)

/-- C1 counterexample: the correction law fails on the rebase path whose
transformed delta is empty.  Over the prefix-deletion algebra (which
satisfies compose-associativity, compose-identity and the TP1 convergence
law), a client deletion of 5 characters against base revision 0 races a
committed server deletion of 10 characters: the transform yields the empty
delta, `applyDelta` returns `(1, empty)` without appending, and
`snapshot(0).contents.compose(d).compose(corr) = 5` differs from
`snapshot(1).contents = 10`. -/
theorem applyDelta_correction_counterexample :
    applyDelta maxAlg exDocMax [] 0 5 none 7
      = .ok (⟨1, 0⟩, exDocMax, [(1, ⟨1, 10⟩), (0, ⟨0, 0⟩)]) ∧
    maxAlg.compose (maxAlg.compose (composeAll maxAlg exDocMax 0) 5)
      ((⟨1, (0 : Nat)⟩ : DeltaResult Nat).delta) = 5 ∧
    composeAll maxAlg exDocMax 1 = 10 ∧
    (5 : Nat) ≠ 10 := by
  refine ⟨?_, by decide, by decide, by decide⟩
  unfold applyDelta applyDeltaTo snapshot snapshotAt
  simp only [composeRevisions_eq_fold]
  rfl

/-- The prefix-deletion algebra is associative under composition. -/
theorem maxAlg_compose_assoc (a b c : Nat) :
    maxAlg.compose (maxAlg.compose a b) c = maxAlg.compose a (maxAlg.compose b c) := by
  simp [maxAlg, Nat.max_assoc]

/-- The prefix-deletion algebra has the empty delta as identity. -/
theorem maxAlg_compose_empty (a : Nat) :
    maxAlg.compose a maxAlg.empty = a ∧ maxAlg.compose maxAlg.empty a = a := by
  simp [maxAlg]

/-- The prefix-deletion algebra satisfies the TP1 convergence law: applying
one delta and then the other transformed over it converges from either
side. -/
theorem maxAlg_tp1 (a b : Nat) :
    maxAlg.compose a (maxAlg.transform a b true)
      = maxAlg.compose b (maxAlg.transform b a true) := by
  simp only [maxAlg]
  split <;> split <;> omega

/-- C1 amended: for every valid base revision and non-empty delta, if
`applyDelta` returns `(newRev, corr)` then
`snapshot(baseRev).contents.compose(d).compose(corr)` equals
`snapshot(newRev).contents`, **provided** that on the rebase path the
transformed delta `dServer.transform(d, true)` is non-empty (when it is
empty, `applyDelta` returns `(current.revNum, empty)` without appending
and the equation can fail); in particular, on the fast path (base equal to
the head) `corr` is the empty delta and the appended delta is `d`
itself. -/
theorem applyDelta_correction {δ : Type} (A : DeltaAlgebra δ) (doc : Doc δ)
    (cache : SnapCache δ) (hvc : ValidCache A doc cache)
    (hne0 : doc.changes ≠ []) (baseRevNum : Nat) (delta : δ)
    (authorId : Option String) (now : Nat) (hbase : baseRevNum ≤ doc.head)
    (hne : A.isEmpty delta = false)
    (hid : ∀ x, A.compose x A.empty = x)
    (hdiff : ∀ a b, A.isDocument a = true → A.isDocument b = true →
      A.compose a (A.diff a b) = b)
    (hdocExp : A.isDocument (A.compose (composeAll A doc baseRevNum) delta) = true)
    (hdocNext : A.isDocument (composeAll A
      (appendChange doc (doc.head + 1)
        (A.transform
          (composeRevisions A doc A.empty (baseRevNum + 1) (doc.head + 1)) delta true)
        authorId now)
      (doc.head + 1)) = true)
    (htr : baseRevNum < doc.head →
      A.isEmpty (A.transform
        (composeRevisions A doc A.empty (baseRevNum + 1) (doc.head + 1)) delta true) = false) :
    ∃ res doc' cache',
      applyDelta A doc cache baseRevNum delta authorId now = .ok (res, doc', cache') ∧
      A.compose (A.compose (composeAll A doc baseRevNum) delta) res.delta
        = composeAll A doc' res.revNum ∧
      (baseRevNum = doc.head → res.delta = A.empty ∧
        doc'.changes = doc.changes
          ++ [{ revNum := baseRevNum + 1, timestamp := some now,
                delta := delta, authorId := authorId }]) := by
  obtain ⟨c1, h1, hv1⟩ := snapshot_ok hvc hbase
  obtain ⟨c2, h2, hv2⟩ := snapshot_none_ok hv1
  by_cases hbeq : baseRevNum = doc.head
  · refine ⟨⟨baseRevNum + 1, A.empty⟩,
      appendChange doc (baseRevNum + 1) delta authorId now, c2, ?_, ?_, ?_⟩
    · unfold applyDelta
      rw [h1]
      simp only [hne, Bool.false_eq_true, if_false]
      rw [h2]
      unfold applyDeltaTo
      simp only [hbeq, if_true]
    · show A.compose (A.compose (composeAll A doc baseRevNum) delta) A.empty = _
      rw [hid]
      rw [hbeq]
      exact (composeAll_append_head A doc hne0 _ _ _ _).symm
    · intro _
      exact ⟨rfl, rfl⟩
  · have hlt : baseRevNum < doc.head := Nat.lt_of_le_of_ne hbase hbeq
    have hdz := htr hlt
    have hv2' := validCache_append hv2 hne0 (doc.head + 1)
      (A.transform
        (composeRevisions A doc A.empty (baseRevNum + 1) (doc.head + 1)) delta true)
      authorId now
    have hhead := head_append doc hne0 (doc.head + 1)
      (A.transform
        (composeRevisions A doc A.empty (baseRevNum + 1) (doc.head + 1)) delta true)
      authorId now
    obtain ⟨c3, h3, _⟩ := snapshot_ok hv2' (n := doc.head + 1) (by rw [hhead])
    refine ⟨⟨doc.head + 1,
        A.diff (A.compose (composeAll A doc baseRevNum) delta)
          (composeAll A
            (appendChange doc (doc.head + 1)
              (A.transform
                (composeRevisions A doc A.empty (baseRevNum + 1) (doc.head + 1)) delta true)
              authorId now)
            (doc.head + 1))⟩,
      appendChange doc (doc.head + 1)
        (A.transform
          (composeRevisions A doc A.empty (baseRevNum + 1) (doc.head + 1)) delta true)
        authorId now,
      c3, ?_, ?_, ?_⟩
    · unfold applyDelta
      rw [h1]
      simp only [hne, Bool.false_eq_true, if_false]
      rw [h2]
      unfold applyDeltaTo
      simp only [hbeq, if_false, hdz, Bool.false_eq_true]
      rw [h3]
    · exact hdiff _ _ hdocExp hdocNext
    · intro h
      exact absurd h hbeq

theorem applyDelta_correction_witness :
    ∃ res doc' cache',
      applyDelta intAlg exDocB [] 1 7 (some "w") 42 = .ok (res, doc', cache') ∧
      intAlg.compose (intAlg.compose (composeAll intAlg exDocB 1) 7) res.delta
        = composeAll intAlg doc' res.revNum ∧
      (1 = exDocB.head → res.delta = intAlg.empty ∧
        doc'.changes = exDocB.changes
          ++ [{ revNum := 1 + 1, timestamp := some 42,
                delta := 7, authorId := some "w" }]) :=
  applyDelta_correction intAlg exDocB [] (by unfold ValidCache; decide)
    (by decide) 1 7 (some "w") 42 (by decide) (by decide)
    (by intro x; simp [intAlg])
    (by intro a b _ _; simp [intAlg])
    (by rfl) (by rfl) (by intro _; decide)

/-! ### File-level lemmas -/

theorem fileGet_cons_ne {δ : Type} (g : FileState δ) (p : StoragePath)
    (v : StoredValue δ) (q : StoragePath) (hpq : p ≠ q) :
    fileGet ((p, v) :: g) q = fileGet g q := by
  unfold fileGet
  rw [List.find?_cons_of_neg]
  simp [hpq]

theorem fileGet_cons_eq {δ : Type} (g : FileState δ) (p : StoragePath)
    (v : StoredValue δ) :
    fileGet ((p, v) :: g) p = some v := by
  unfold fileGet
  rw [List.find?_cons_of_pos]
  simp

/-- C4: at most one change is ever committed for a revision `n`.  The
append transaction built by `_appendDelta` is a single transaction whose
sorted operations run `checkPathEmpty change/<n>` before the two writes;
when the change path is empty it commits, writing the change and updating
`revision_number` to `n`; and a second append for the same `n` against the
committed state fails with the distinguished `path_not_empty` error kind
and with no other error. -/
theorem appendTransaction_at_most_once {δ : Type} (f : FileState δ) (n : Nat)
    (c1 c2 : DocumentChange δ)
    (hempty : fileGet f (.changeFor n) = none) :
    sortByCategory (appendSpecOps n c1) = appendSpecOps n c1 ∧
    ∃ f', transact f (appendSpecOps n c1) = .ok (f', []) ∧
      fileGet f' (.changeFor n) = some (.encChange c1) ∧
      fileGet f' .revisionNumber = some (.encNum n) ∧
      transact f' (appendSpecOps n c2) = .error .pathNotEmpty ∧
      (∀ e, e ≠ ErrorKind.pathNotEmpty →
        transact f' (appendSpecOps n c2) ≠ .error e) := by
  have hne1 : StoragePath.revisionNumber ≠ StoragePath.changeFor n := by
    intro h
    cases h
  have hsort : ∀ c : DocumentChange δ,
      sortByCategory (appendSpecOps n c) = appendSpecOps n c := by
    intro c
    show (((List.range 7).map _)).flatten = _
    rw [show List.range 7 = [0, 1, 2, 3, 4, 5, 6] from rfl]
    simp [appendSpecOps, FileOp.category, OpCategory.rank]
  have hmake : ∀ c : DocumentChange δ,
      TransactionSpec.make (appendSpecOps n c) = .ok (appendSpecOps n c) := by
    intro c
    unfold TransactionSpec.make
    rw [hsort]
    simp [opsWithName, opsWithCategory, appendSpecOps, FileOp.opName,
      FileOp.category, jsArrayStrictEqNum, jsArrayGtNum]
  have htr1 : transact f (appendSpecOps n c1)
      = .ok (((StoragePath.revisionNumber, StoredValue.encNum n)
          :: (StoragePath.changeFor n, StoredValue.encChange c1) :: f), []) := by
    unfold transact
    rw [hmake]
    simp [runOps, appendSpecOps, hempty, fileSet]
  refine ⟨hsort c1, _, htr1, ?_, ?_, ?_, ?_⟩
  · rw [fileGet_cons_ne _ _ _ _ hne1, fileGet_cons_eq]
  · rw [fileGet_cons_eq]
  · unfold transact
    rw [hmake]
    simp only [appendSpecOps, runOps]
    rw [fileGet_cons_ne _ _ _ _ hne1, fileGet_cons_eq]
  · intro e he hcontra
    unfold transact at hcontra
    rw [hmake] at hcontra
    simp only [appendSpecOps, runOps] at hcontra
    rw [fileGet_cons_ne _ _ _ _ hne1, fileGet_cons_eq] at hcontra
    simp at hcontra
    exact he hcontra.symm

theorem appendTransaction_at_most_once_witness :
    sortByCategory (appendSpecOps 1 ⟨1, some 5, (7 : Int), none⟩)
      = appendSpecOps 1 ⟨1, some 5, (7 : Int), none⟩ ∧
    ∃ f', transact ([] : FileState Int) (appendSpecOps 1 ⟨1, some 5, 7, none⟩)
        = .ok (f', []) ∧
      fileGet f' (.changeFor 1) = some (.encChange ⟨1, some 5, 7, none⟩) ∧
      fileGet f' .revisionNumber = some (.encNum 1) ∧
      transact f' (appendSpecOps 1 ⟨1, some 6, (8 : Int), some "b"⟩)
        = .error .pathNotEmpty ∧
      (∀ e, e ≠ ErrorKind.pathNotEmpty →
        transact f' (appendSpecOps 1 ⟨1, some 6, (8 : Int), some "b"⟩)
          ≠ .error e) :=
  appendTransaction_at_most_once [] 1 ⟨1, some 5, 7, none⟩ ⟨1, some 6, 8, some "b"⟩
    (by rfl)

/-- C9 (the wait-mix validation is dead code): a transaction specification
holding exactly one wait operation together with a read operation is
accepted by the `TransactionSpec` constructor — the sorted spec is
returned and no error is raised — even though it has one wait-category
operation and `hasReadOps` is true, the precise condition the
constructor's "Cannot mix wait operations with reads and modifications."
check was written to reject.  The check compares the **array**
`opsWithCategory(CAT_WAIT)` (not its length) against numbers, and such
comparisons are always false in JavaScript. -/
theorem transactionSpec_wait_mix_accepted :
    TransactionSpec.make
        [(FileOp.whenPathNot StoragePath.revisionNumber (StoredValue.encNum 0) : FileOp Int),
         FileOp.readPath StoragePath.formatVersion]
      = .ok [FileOp.readPath StoragePath.formatVersion,
             FileOp.whenPathNot StoragePath.revisionNumber (StoredValue.encNum 0)] ∧
    (opsWithCategory (sortByCategory
        [(FileOp.whenPathNot StoragePath.revisionNumber (StoredValue.encNum 0) : FileOp Int),
         FileOp.readPath StoragePath.formatVersion]) OpCategory.wait).length = 1 ∧
    hasReadOps (sortByCategory
        [(FileOp.whenPathNot StoragePath.revisionNumber (StoredValue.encNum 0) : FileOp Int),
         FileOp.readPath StoragePath.formatVersion]) = true :=
  ⟨rfl, rfl, rfl⟩

/-! ### Retry-loop lemmas -/

theorem retryDelayMsec_pos (n : Nat) : 0 < retryDelayMsec n := by
  have : 0 < (5 : Nat) ^ n := Nat.pos_pow_of_pos n (by omega)
  simp only [retryDelayMsec, INITIAL_APPEND_RETRY_MSEC, APPEND_RETRY_GROWTH_FACTOR]
  omega

theorem applyDeltaLoop_all_none {R : Type}
    (att : Nat → Except ErrorKind (Option R)) (hall : ∀ k, att k = .ok none) :
    ∀ m, applyDeltaLoop att m = .error .tooManyRetries := by
  have H : ∀ fuel m, MAX_APPEND_TIME_MSEC - retryTotalMsec m ≤ fuel →
      applyDeltaLoop att m = .error .tooManyRetries := by
    intro fuel
    induction fuel with
    | zero =>
      intro m hm
      unfold applyDeltaLoop
      rw [hall m]
      have hb : MAX_APPEND_TIME_MSEC ≤ retryTotalMsec m := by omega
      simp [hb]
    | succ fu ih =>
      intro m hm
      unfold applyDeltaLoop
      rw [hall m]
      by_cases hb : MAX_APPEND_TIME_MSEC ≤ retryTotalMsec m
      · simp [hb]
      · simp only [hb, if_false]
        apply ih
        have hpos := retryDelayMsec_pos m
        have hstep : retryTotalMsec (m + 1) = retryTotalMsec m + retryDelayMsec m := rfl
        omega
  intro m
  exact H _ m (Nat.le_refl _)

theorem applyDeltaLoop_error_cases {R : Type}
    (att : Nat → Except ErrorKind (Option R)) :
    ∀ m e, applyDeltaLoop att m = .error e →
      e = .tooManyRetries ∨ ∃ k, att k = .error e := by
  have H : ∀ fuel m e, MAX_APPEND_TIME_MSEC - retryTotalMsec m ≤ fuel →
      applyDeltaLoop att m = .error e →
      e = .tooManyRetries ∨ ∃ k, att k = .error e := by
    intro fuel
    induction fuel with
    | zero =>
      intro m e hm h
      unfold applyDeltaLoop at h
      cases hatt : att m with
      | error e' =>
        rw [hatt] at h
        simp only [Except.error.injEq] at h
        exact Or.inr ⟨m, by rw [hatt, h]⟩
      | ok o =>
        rw [hatt] at h
        cases o with
        | some r => simp at h
        | none =>
          have hb : MAX_APPEND_TIME_MSEC ≤ retryTotalMsec m := by omega
          simp only [hb, if_true] at h
          simp only [Except.error.injEq] at h
          exact Or.inl h.symm
    | succ fu ih =>
      intro m e hm h
      unfold applyDeltaLoop at h
      cases hatt : att m with
      | error e' =>
        rw [hatt] at h
        simp only [Except.error.injEq] at h
        exact Or.inr ⟨m, by rw [hatt, h]⟩
      | ok o =>
        rw [hatt] at h
        cases o with
        | some r => simp at h
        | none =>
          by_cases hb : MAX_APPEND_TIME_MSEC ≤ retryTotalMsec m
          · simp only [hb, if_true, Except.error.injEq] at h
            exact Or.inl h.symm
          · simp only [hb, if_false] at h
            apply ih (m + 1) e ?_ h
            have hpos := retryDelayMsec_pos m
            have hstep : retryTotalMsec (m + 1) = retryTotalMsec m + retryDelayMsec m := rfl
            omega
  intro m e
  exact H _ m e (Nat.le_refl _)

/-- C5: `path_not_empty` append failures are never surfaced by
`applyDelta`.  `_appendDelta` converts the `path_not_empty` transaction
failure (a lost append race) into the `null` retry outcome; the retry
loop's only error of its own is the too-many-retries failure, raised once
the accumulated retry time `retryTotalMsec` has reached the 20-second
`MAX_APPEND_TIME_MSEC` budget; and the delays slept start at 50 ms and
grow by a factor of 5 per attempt (so a run whose every attempt loses the
race fails with the too-many-retries kind, its first five delays summing
past the budget while the first four do not). -/
theorem applyDelta_retry_policy {δ R : Type} (A : DeltaAlgebra δ)
    (attempt : Nat → Except ErrorKind (Option R)) (f : FileState δ)
    (n : Nat) (d : δ) (a : Option String) (t : Nat) (v : StoredValue δ)
    (hne : A.isEmpty d = false)
    (hocc : fileGet f (.changeFor (n + 1)) = some v)
    (hall : ∀ k, attempt k = .ok none) :
    appendDeltaFile A f n d a t = .ok none ∧
    (∀ (att : Nat → Except ErrorKind (Option R)) (m : Nat) (e : ErrorKind),
      applyDeltaLoop att m = .error e →
        e = .tooManyRetries ∨ ∃ k, att k = .error e) ∧
    applyDeltaLoop attempt 0 = .error .tooManyRetries ∧
    retryDelayMsec 0 = 50 ∧
    (∀ k, retryDelayMsec (k + 1) = 5 * retryDelayMsec k) ∧
    retryTotalMsec 4 < MAX_APPEND_TIME_MSEC ∧
    MAX_APPEND_TIME_MSEC ≤ retryTotalMsec 5 := by
  have hne1 : StoragePath.revisionNumber ≠ StoragePath.changeFor (n + 1) := by
    intro h
    cases h
  refine ⟨?_, fun att m e h => applyDeltaLoop_error_cases att m e h,
    applyDeltaLoop_all_none attempt hall 0, rfl, ?_, by decide, by decide⟩
  · unfold appendDeltaFile
    simp only [hne, Bool.false_eq_true, if_false]
    have hmake : TransactionSpec.make (appendSpecOps (n + 1)
        ({ revNum := n + 1, timestamp := some t, delta := d, authorId := a }
          : DocumentChange δ))
        = .ok (appendSpecOps (n + 1)
            { revNum := n + 1, timestamp := some t, delta := d, authorId := a }) := by
      unfold TransactionSpec.make
      have hsort : sortByCategory (appendSpecOps (n + 1)
          ({ revNum := n + 1, timestamp := some t, delta := d, authorId := a }
            : DocumentChange δ))
          = appendSpecOps (n + 1)
              { revNum := n + 1, timestamp := some t, delta := d, authorId := a } := by
        show (((List.range 7).map _)).flatten = _
        rw [show List.range 7 = [0, 1, 2, 3, 4, 5, 6] from rfl]
        simp [appendSpecOps, FileOp.category, OpCategory.rank]
      rw [hsort]
      simp [opsWithName, opsWithCategory, appendSpecOps, FileOp.opName,
        FileOp.category, jsArrayStrictEqNum, jsArrayGtNum]
    unfold transact
    rw [hmake]
    simp [runOps, appendSpecOps, hocc]
  · intro k
    simp only [retryDelayMsec, INITIAL_APPEND_RETRY_MSEC, APPEND_RETRY_GROWTH_FACTOR]
    ring

theorem applyDelta_retry_policy_witness :
    appendDeltaFile intAlg [(StoragePath.changeFor 1, StoredValue.encNum 9)] 0 1 none 3
      = .ok none ∧
    (∀ (att : Nat → Except ErrorKind (Option Nat)) (m : Nat) (e : ErrorKind),
      applyDeltaLoop att m = .error e →
        e = .tooManyRetries ∨ ∃ k, att k = .error e) ∧
    applyDeltaLoop (fun _ => (.ok none : Except ErrorKind (Option Nat))) 0
      = .error .tooManyRetries ∧
    retryDelayMsec 0 = 50 ∧
    (∀ k, retryDelayMsec (k + 1) = 5 * retryDelayMsec k) ∧
    retryTotalMsec 4 < MAX_APPEND_TIME_MSEC ∧
    MAX_APPEND_TIME_MSEC ≤ retryTotalMsec 5 :=
  applyDelta_retry_policy intAlg (fun _ => .ok none)
    [(StoragePath.changeFor 1, StoredValue.encNum 9)] 0 1 none 3
    (StoredValue.encNum 9) (by decide) (by rfl) (fun _ => rfl)

end DocCtl
